import Mathlib

/-!
Verification of the table-preparation and choropleth-rendering pipeline in
`mapping_functions.py` (functions `prepare_zip_table`, `prepare_county_table`,
`prepare_state_table`, `render_map`).

Numeric data is embedded as exact rationals (`ℚ`); missing values are `Option`;
pandas/numpy operations used by the source are modelled from their documented
semantics (`str.pad`, `astype(str)` on the NaN missing marker, outer `pd.merge`,
`Series.round` half-to-even, `np.arange`, `np.percentile` with linear
interpolation, Python list slicing).
-/

namespace MappingFunctions

/-- pandas `Series.str.pad(5, fillchar='0')` applied to one cell: pads on the
left (the default side) with `'0'` up to width 5; longer strings are unchanged. -/
def strPad5 (s : String) : String :=
  if s.length < 5 then String.mk (List.replicate (5 - s.length) '0') ++ s else s

/-- pandas `.astype(str)` on a possibly-missing key cell: a present key is kept
in its string form, while the float `NaN` missing marker renders as `"nan"`. -/
def astypeStr : Option String → String
  | some s => s
  | none => "nan"

/-- The normalization `prepare_zip_table` applies to both key columns:
`.astype(str).str.pad(5, fillchar = '0')`. -/
def normalizeZipKey (k : Option String) : String :=
  strPad5 (astypeStr k)

/-- One row of the result of `pd.merge(..., how = 'outer')`: the join key, the
left (shape) payload when a shape row matched, and the right (census data)
payload when a data row matched. -/
structure MergedRow (κ : Type) (α : Type) (β : Type) where
  key : κ
  left : Option α
  right : Option β
deriving DecidableEq, Repr

/-- The merged rows produced for one left row `l`: one row per matching right
row, or a single right-null row when nothing matches. -/
def matchRow [DecidableEq κ] (rs : List (κ × β)) (l : κ × α) :
    List (MergedRow κ α β) :=
  let ms := rs.filter (fun r => decide (l.1 = r.1))
  if ms.isEmpty then [⟨l.1, some l.2, none⟩]
  else ms.map (fun r => ⟨l.1, some l.2, some r.2⟩)

/-- The right rows that match no left row, appended (left-null) at the end of an
outer merge. -/
def unmatchedRight [DecidableEq κ] (ls : List (κ × α)) (rs : List (κ × β)) :
    List (MergedRow κ α β) :=
  (rs.filter (fun r => !(ls.any (fun l => decide (l.1 = r.1))))).map
    (fun r => ⟨r.1, none, some r.2⟩)

/-- `pd.merge(left, right, left_on, right_on, how = 'outer')` on key/payload
rows: all left rows paired with their matching right rows (right-null when
unmatched), followed by the unmatched right rows (left-null). -/
def outerMerge [DecidableEq κ] (ls : List (κ × α)) (rs : List (κ × β)) :
    List (MergedRow κ α β) :=
  ls.flatMap (matchRow rs) ++ unmatchedRight ls rs

/-- The `geometry` column of a merged row when the left payload is a shape row
carrying a possibly-null geometry: null when the row has no left part or the
shape row's own geometry is null. -/
def rowGeometry (r : MergedRow κ (Option γ) β) : Option γ :=
  r.left.bind id

/-- `merged_shape_data_table.dropna(subset = 'geometry')`. -/
def dropnaGeometry (rows : List (MergedRow κ (Option γ) β)) :
    List (MergedRow κ (Option γ) β) :=
  rows.filter (fun r => (rowGeometry r).isSome)

/-- `prepare_zip_table`, restricted to the columns the claims are about: both
key columns are normalized by `.astype(str).str.pad(5, fillchar = '0')`, the
tables are outer-merged, and rows with null geometry are optionally dropped.
A shape row is (key cell, possibly-null geometry); a data row is
(key cell, payload). -/
def prepare_zip_table (shape_rows : List (Option String × Option γ))
    (data_rows : List (Option String × β)) (dropna_geometry : Bool) :
    List (MergedRow String (Option γ) β) :=
  let shape' := shape_rows.map (fun r => (normalizeZipKey r.1, r.2))
  let data' := data_rows.map (fun r => (normalizeZipKey r.1, r.2))
  let merged := outerMerge shape' data'
  if dropna_geometry then dropnaGeometry merged else merged

/-- Round a rational to the nearest integer, ties to even: the rounding used by
numpy/pandas (`Series.round`). -/
def roundHalfEven (x : ℚ) : ℤ :=
  if x - ⌊x⌋ < 1/2 then ⌊x⌋
  else if (1:ℚ)/2 < x - ⌊x⌋ then ⌊x⌋ + 1
  else if ⌊x⌋ % 2 = 0 then ⌊x⌋ else ⌊x⌋ + 1

/-- pandas `Series.round(decimals)` on one cell. -/
def roundTo (decimals : ℕ) (x : ℚ) : ℚ :=
  (roundHalfEven (x * 10 ^ decimals) : ℚ) / 10 ^ decimals

/-- Python list slice `xs[0:r]`: for `r ≥ 0` the first `r` elements; for
negative `r` the stop index is `len(xs) + r` clamped at `0`. -/
def pySlice0 (r : ℤ) (xs : List α) : List α :=
  if 0 ≤ r then xs.take r.toNat else xs.take ((xs.length : ℤ) + r).toNat

/-- `np.arange(start, stop, step)` over exact rationals: numpy raises
`ZeroDivisionError` when `step` is zero (numpy ≥ 1.12); otherwise it returns
`start + k·step` for `k < max(⌈(stop - start)/step⌉, 0)`. -/
def np_arange (start stop step : ℚ) : Except String (List ℚ) :=
  if step = 0 then .error "ZeroDivisionError: division by zero"
  else .ok ((List.range (⌈(stop - start) / step⌉).toNat).map
    (fun k => start + k * step))

/-- Linear interpolation at fractional index `p` into a (sorted) list:
`xs[⌊p⌋] + (p - ⌊p⌋)·(xs[⌊p⌋+1] - xs[⌊p⌋])`, with the second index falling back
to `xs[⌊p⌋]` when it is past the end (which only happens with zero weight for
`0 ≤ p ≤ len - 1`). -/
def interpSorted (xs : List ℚ) (p : ℚ) : ℚ :=
  let i := (⌊p⌋).toNat
  let xi := xs.getD i 0
  xi + (p - ⌊p⌋) * (xs.getD (i + 1) xi - xi)

/-- `np.percentile(values, q)` with the default linear interpolation between
order statistics: sort the values and interpolate at index `q·(n-1)/100`. -/
def np_percentile_one (values : List ℚ) (q : ℚ) : ℚ :=
  interpSorted (values.insertionSort (· ≤ ·)) (q * ((values.length : ℚ) - 1) / 100)

/-- `np.percentile(values, qs)` for a list of percentile points. -/
def np_percentile (values : List ℚ) (qs : List ℚ) : List ℚ :=
  qs.map (np_percentile_one values)

/-- The percentile points `render_map` passes to `np.percentile`. -/
def percentile_points : List ℚ :=
  [0, 12.5, 25, 37.5, 50, 62.5, 75, 87.5, 100]

/-- The bin computation of `render_map` (lines 325-347): `'percentiles'` takes
`np.percentile` at the nine points; `'equally_spaced'` takes
`np.arange(min, max, (max-min)/8)` and appends the exact maximum; any other
`bin_type` raises `TypeError`. An empty value column is an error in both
recognized branches (numpy cannot take percentiles of an empty sequence, and
`min`/`max` of an empty column are NaN, outside this rational embedding). -/
def compute_bins (values : List ℚ) (bin_type : String) : Except String (List ℚ) :=
  if bin_type = "percentiles" then
    if values.isEmpty then .error "IndexError: empty percentile input"
    else .ok (np_percentile values percentile_points)
  else if bin_type = "equally_spaced" then
    match values.min?, values.max? with
    | some min_val, some max_val =>
      (np_arange min_val max_val ((max_val - min_val) / 8)).map
        (fun bins => bins ++ [max_val])
    | _, _ => .error "NaN: min/max of empty column"
  else .error "TypeError: bin type not recognized"

/-- The value-processing stages of `render_map`, in source order: drop rows
whose value is missing, multiply by `multiply_data_by`, round to
`variable_decimals` decimals, then (when `rows_to_map ≠ 0`) slice to
`[0:rows_to_map]`. -/
def processValues (values : List (Option ℚ)) (multiply_data_by : ℚ)
    (variable_decimals : ℕ) (rows_to_map : ℤ) : List ℚ :=
  let dropped := values.filterMap id
  let scaled := dropped.map (fun v => v * multiply_data_by)
  let rounded := scaled.map (roundTo variable_decimals)
  if rows_to_map ≠ 0 then pySlice0 rows_to_map rounded else rounded

/-- The data-processing, binning and file-writing stages of `render_map`:
returns the list of files written, together with either the raised error or the
processed values and bins the map is built from. The `.html` save happens only
after the bins are computed (the `raise` precedes `m.save`). -/
def render_map (values : List (Option ℚ)) (multiply_data_by : ℚ)
    (variable_decimals : ℕ) (rows_to_map : ℤ) (bin_type : String)
    (html_save_path map_name : String) :
    List String × Except String (List ℚ × List ℚ) :=
  let vals := processValues values multiply_data_by variable_decimals rows_to_map
  match compute_bins vals bin_type with
  | .error e => ([], .error e)
  | .ok bins => ([html_save_path ++ "\\" ++ map_name ++ ".html"], .ok (vals, bins))

/-- The screenshot stage of `render_map` (`generate_image = True`), which is
straight-line code with no try/finally:
`ff_driver = webdriver.Firefox(); set_window_size(...); ff_driver.get(...);
time.sleep(2); ff_driver.get_screenshot_as_file(...); ff_driver.quit()`.
The three booleans say whether navigation, the render delay, or the screenshot
capture raises. Returns whether `ff_driver.quit()` was reached, paired with the
outcome. -/
def captureImage (navRaises sleepRaises shotRaises : Bool) :
    Bool × Except String Unit :=
  if navRaises then (false, .error "navigation failed")
  else if sleepRaises then (false, .error "render delay interrupted")
  else if shotRaises then (false, .error "screenshot capture failed")
  else (true, .ok ())

/-! ### Helper lemmas -/

theorem rat_min?_eq_some_iff (xs : List ℚ) (a : ℚ) :
    xs.min? = some a ↔ a ∈ xs ∧ ∀ b ∈ xs, a ≤ b := by
  have anti : Std.Antisymm ((· : ℚ) ≤ ·) := ⟨fun h h' => le_antisymm h h'⟩
  exact List.min?_eq_some_iff (fun _ => le_refl _) (fun a b => min_choice a b)
    (fun _ _ _ => le_min_iff)

theorem rat_max?_eq_some_iff (xs : List ℚ) (a : ℚ) :
    xs.max? = some a ↔ a ∈ xs ∧ ∀ b ∈ xs, b ≤ a := by
  have anti : Std.Antisymm ((· : ℚ) ≤ ·) := ⟨fun h h' => le_antisymm h h'⟩
  exact List.max?_eq_some_iff (fun _ => le_refl _) (fun a b => max_choice a b)
    (fun _ _ _ => max_le_iff)

/-! ### Claim theorems -/

/-- C7: zip-key normalization pads any key shorter than 5 characters to exactly
5 characters by left-padding with `'0'`, and a key already 5 characters long is
left unchanged (so the normalization is idempotent). -/
theorem zip_key_padding (s : String) :
    (s.length < 5 → (strPad5 s).length = 5 ∧
      strPad5 s = String.mk (List.replicate (5 - s.length) '0') ++ s) ∧
    (s.length = 5 → strPad5 s = s) ∧
    strPad5 (strPad5 s) = strPad5 s := by
  have hpadlen : s.length < 5 → (strPad5 s).length = 5 := by
    intro h
    unfold strPad5
    rw [if_pos h]
    simp [String.length_append]
    omega
  have hfix : ∀ t : String, t.length = 5 → strPad5 t = t := by
    intro t ht
    unfold strPad5
    rw [if_neg (by omega)]
  refine ⟨fun h => ⟨hpadlen h, ?_⟩, hfix s, ?_⟩
  · unfold strPad5
    rw [if_pos h]
  · by_cases h : s.length < 5
    · exact hfix _ (hpadlen h)
    · have heq : strPad5 s = s := by unfold strPad5; rw [if_neg h]
      rw [heq]
      exact heq

/-- C7 witness: `"501"` is padded to the 5-character `"00501"`, and the
already-5-character `"00501"` is left unchanged. -/
theorem zip_key_padding_witness :
    ("501".length < 5 ∧ (strPad5 "501").length = 5 ∧ strPad5 "501" = "00501") ∧
    ("00501".length = 5 ∧ strPad5 "00501" = "00501") := by
  refine ⟨⟨by decide, ((zip_key_padding "501").1 (by decide)).1, ?_⟩,
    by decide, ((zip_key_padding "00501").2.1 (by decide))⟩
  have := ((zip_key_padding "501").1 (by decide)).2
  simpa using this

/-- C4 counterexample: when navigation raises, `render_map`'s capture stage
exits with an error but `ff_driver.quit()` is never reached, so the browser is
not terminated on that exit path (there is no try/finally around the capture
code). -/
theorem capture_leaks_browser_on_failure :
    captureImage true false false = (false, .error "navigation failed") := rfl

/-- C4 (amended): the browser instance spawned by the capture stage is
terminated only on the success path; when navigation, the render delay, or the
screenshot capture raises, `quit()` is not executed and the browser is leaked. -/
theorem capture_terminates_browser_iff_success (n s c : Bool) :
    (captureImage n s c).1 = (!n && !s && !c) ∧
    ((captureImage n s c).2 = .ok () ↔ (!n && !s && !c) = true) := by
  cases n <;> cases s <;> cases c <;> refine ⟨rfl, ?_⟩ <;> simp [captureImage]

theorem render_map_snd (values : List (Option ℚ)) (m : ℚ) (d : ℕ) (r : ℤ)
    (bt hp mnm : String) :
    (render_map values m d r bt hp mnm).2 =
      (compute_bins (processValues values m d r) bt).map
        (fun bins => (processValues values m d r, bins)) := by
  cases h : compute_bins (processValues values m d r) bt <;>
    simp [render_map, h, Except.map]

theorem compute_bins_error_ne (vals : List ℚ) (bt : String)
    (hbt : bt = "percentiles" ∨ bt = "equally_spaced") (e : String)
    (he : compute_bins vals bt = .error e) :
    e ≠ "TypeError: bin type not recognized" := by
  intro heq
  subst heq
  rcases hbt with rfl | rfl
  · unfold compute_bins at he
    rw [if_pos rfl] at he
    split at he <;> simp at he
  · unfold compute_bins at he
    rw [if_neg (by decide), if_pos rfl] at he
    split at he
    · unfold np_arange at he
      split at he <;> simp [Except.map] at he
    · simp at he

/-- C5: an unrecognized `bin_type` makes `render_map` raise a `TypeError`
before any map artifact is written (its write list is empty), and for the two
recognized policies (`'percentiles'`, `'equally_spaced'`) that error is never
raised. -/
theorem unrecognized_bin_type_raises_before_save
    (values : List (Option ℚ)) (m : ℚ) (d : ℕ) (r : ℤ) (bt hp mnm : String) :
    (bt ≠ "percentiles" → bt ≠ "equally_spaced" →
      render_map values m d r bt hp mnm =
        ([], .error "TypeError: bin type not recognized")) ∧
    (bt = "percentiles" ∨ bt = "equally_spaced" →
      ∀ e, (render_map values m d r bt hp mnm).2 = .error e →
        e ≠ "TypeError: bin type not recognized") := by
  constructor
  · intro h1 h2
    simp [render_map, compute_bins, h1, h2]
  · intro hbt e he
    rw [render_map_snd] at he
    cases hcb : compute_bins (processValues values m d r) bt with
    | error e' =>
      rw [hcb] at he
      simp [Except.map] at he
      subst he
      exact compute_bins_error_ne _ _ hbt _ hcb
    | ok bins =>
      rw [hcb] at he
      simp [Except.map] at he

/-- C5 witness: the misspelled policy `'equally spaced'` raises the
`TypeError` with nothing written, while `'percentiles'` on a concrete table
succeeds. -/
theorem unrecognized_bin_type_raises_before_save_witness :
    (render_map [some 1, some 2] 1 0 0 "equally spaced" "p" "m" =
      ([], .error "TypeError: bin type not recognized")) ∧
    ∀ e, (render_map [some 1, some 2] 1 0 0 "percentiles" "p" "m").2 = .error e →
      e ≠ "TypeError: bin type not recognized" :=
  ⟨(unrecognized_bin_type_raises_before_save [some 1, some 2] 1 0 0
      "equally spaced" "p" "m").1 (by decide) (by decide),
   (unrecognized_bin_type_raises_before_save [some 1, some 2] 1 0 0
      "percentiles" "p" "m").2 (Or.inl rfl)⟩

/-- The processed value column of `render_map` before the `rows_to_map`
truncation: null rows dropped, values scaled, then rounded. -/
def preTruncateValues (values : List (Option ℚ)) (multiply_data_by : ℚ)
    (variable_decimals : ℕ) : List ℚ :=
  ((values.filterMap id).map (fun v => v * multiply_data_by)).map
    (roundTo variable_decimals)

/-- C9: a negative `rows_to_map = -n` is not "unlimited" and not "first
`rows_to_map` rows": the slice `[0:rows_to_map]` keeps all but the last `n`
processed rows, and the bins are computed from that shortened column. -/
theorem negative_rows_to_map_drops_last_rows (values : List (Option ℚ))
    (m : ℚ) (d : ℕ) (n : ℕ) (hn : 0 < n)
    (h : n < (preTruncateValues values m d).length) (bt hp mnm : String) :
    processValues values m d (-(n : ℤ)) =
      (preTruncateValues values m d).take
        ((preTruncateValues values m d).length - n) ∧
    (render_map values m d (-(n : ℤ)) bt hp mnm).2 =
      (compute_bins (processValues values m d (-(n : ℤ))) bt).map
        (fun bins => (processValues values m d (-(n : ℤ)), bins)) := by
  constructor
  · have hr : (-(n : ℤ)) ≠ 0 := by omega
    show (if (-(n : ℤ)) ≠ 0 then pySlice0 (-(n : ℤ)) (preTruncateValues values m d)
      else preTruncateValues values m d) = _
    rw [if_pos hr]
    unfold pySlice0
    rw [if_neg (by omega)]
    congr 1
    omega
  · exact render_map_snd values m d (-(n : ℤ)) bt hp mnm

/-- C9 witness: with three processed rows and `rows_to_map = -1`, the first two
rows are mapped and the bins are those of the two-row column. -/
theorem negative_rows_to_map_drops_last_rows_witness :
    processValues [some 1, some 2, some 3] 1 0 (-((1 : ℕ) : ℤ)) = [1, 2] ∧
    (0 : ℕ) < 1 ∧ (1 : ℕ) < (preTruncateValues [some 1, some 2, some 3] 1 0).length := by
  have hpre : preTruncateValues [some 1, some 2, some 3] 1 0 = [1, 2, 3] := by
    have hfm : List.filterMap id [some (1 : ℚ), some 2, some 3] = [1, 2, 3] := rfl
    unfold preTruncateValues
    rw [hfm]
    norm_num [roundTo, roundHalfEven]
  refine ⟨?_, by decide, by rw [hpre]; decide⟩
  have h1 := (negative_rows_to_map_drops_last_rows [some 1, some 2, some 3] 1 0 1
    (by decide) (by rw [hpre]; decide) "percentiles" "p" "m").1
  rw [h1, hpre]
  decide

/-- C2 counterexample: on an all-equal value column the equal-width branch
computes a zero increment, `np.arange` raises `ZeroDivisionError`, and
`compute_bins` therefore errors instead of returning a single-class binning. -/
theorem equal_width_all_equal_raises_example :
    compute_bins [5, 5, 5] "equally_spaced" =
      .error "ZeroDivisionError: division by zero" := by
  have hmn : ([5, 5, 5] : List ℚ).min? = some 5 := by decide
  have hmx : ([5, 5, 5] : List ℚ).max? = some 5 := by decide
  unfold compute_bins
  rw [if_neg (by decide), if_pos rfl, hmn, hmx]
  norm_num [np_arange, Except.map]

theorem compute_bins_equal_width_const (values : List ℚ) (c : ℚ)
    (hmn : values.min? = some c) (hmx : values.max? = some c) :
    compute_bins values "equally_spaced" =
      .error "ZeroDivisionError: division by zero" := by
  simp only [compute_bins]
  rw [if_true, hmn, hmx]
  simp [np_arange, Except.map]

/-- C2 (amended): for every non-empty all-equal value column, the equal-width
(`'equally_spaced'`) bin computation raises `ZeroDivisionError` (the zero
increment is passed to `np.arange` as its step) rather than producing a valid
single-class output. -/
theorem equal_width_all_equal_raises (values : List ℚ) (c : ℚ)
    (hne : values ≠ []) (hall : ∀ v ∈ values, v = c) :
    compute_bins values "equally_spaced" =
      .error "ZeroDivisionError: division by zero" := by
  have hc : c ∈ values := by
    cases values with
    | nil => exact absurd rfl hne
    | cons v vs =>
      rw [← hall v (List.mem_cons_self v vs)]
      exact List.mem_cons_self v vs
  have hmn : values.min? = some c :=
    (rat_min?_eq_some_iff values c).2 ⟨hc, fun b hb => le_of_eq (hall b hb).symm⟩
  have hmx : values.max? = some c :=
    (rat_max?_eq_some_iff values c).2 ⟨hc, fun b hb => le_of_eq (hall b hb)⟩
  exact compute_bins_equal_width_const values c hmn hmx

/-- C2 witness for the amended claim: the concrete all-equal column `[5, 5, 5]`
raises `ZeroDivisionError`. -/
theorem equal_width_all_equal_raises_witness :
    compute_bins [5, 5, 5] "equally_spaced" =
      .error "ZeroDivisionError: division by zero" :=
  equal_width_all_equal_raises [5, 5, 5] 5 (by decide) (by decide)

theorem compute_bins_equally_spaced (values : List ℚ) (mn mx : ℚ)
    (hmn : values.min? = some mn) (hmx : values.max? = some mx) :
    compute_bins values "equally_spaced" =
      (np_arange mn mx ((mx - mn) / 8)).map (fun bins => bins ++ [mx]) := by
  unfold compute_bins
  rw [if_neg (by decide), if_pos rfl, hmn, hmx]

theorem compute_bins_percentiles (values : List ℚ) (hne : values ≠ []) :
    compute_bins values "percentiles" =
      .ok (np_percentile values percentile_points) := by
  unfold compute_bins
  rw [if_pos rfl, if_neg (by simpa [List.isEmpty_iff] using hne)]

theorem np_arange_eq (start stop step : ℚ) (h : step ≠ 0) :
    np_arange start stop step =
      .ok ((List.range (⌈(stop - start) / step⌉).toNat).map
        (fun k => start + k * step)) := by
  unfold np_arange
  rw [if_neg h]

theorem compute_bins_equal_width_explicit (values : List ℚ) (mn mx : ℚ)
    (hmn : values.min? = some mn) (hmx : values.max? = some mx) (hlt : mn < mx) :
    compute_bins values "equally_spaced" =
      .ok [mn, mn + (mx - mn) / 8, mn + 2 * ((mx - mn) / 8),
        mn + 3 * ((mx - mn) / 8), mn + 4 * ((mx - mn) / 8),
        mn + 5 * ((mx - mn) / 8), mn + 6 * ((mx - mn) / 8),
        mn + 7 * ((mx - mn) / 8), mx] := by
  have hsub : mx - mn ≠ 0 := sub_ne_zero.mpr (ne_of_gt hlt)
  have hstep : (mx - mn) / 8 ≠ 0 := div_ne_zero hsub (by norm_num)
  have h8 : (mx - mn) / ((mx - mn) / 8) = 8 := by
    field_simp
  rw [compute_bins_equally_spaced values mn mx hmn hmx, np_arange_eq _ _ _ hstep, h8]
  have hn : (⌈(8 : ℚ)⌉).toNat = 8 := by
    rw [show ⌈(8 : ℚ)⌉ = (8 : ℤ) from by norm_num]
    rfl
  rw [hn, show List.range 8 = [0, 1, 2, 3, 4, 5, 6, 7] from rfl]
  simp only [List.map_cons, List.map_nil, Except.map, List.cons_append,
    List.nil_append, Except.ok.injEq, List.cons.injEq, and_true]
  norm_num

/-- C1: under the equal-width policy (`'equally_spaced'`), a non-empty value
column with min < max yields exactly 9 edges: min, min+inc, …, min+7·inc for
inc = (max-min)/8, with the last edge exactly the maximum. -/
theorem equal_width_bins_eq (values : List ℚ) (mn mx : ℚ)
    (hmn : values.min? = some mn) (hmx : values.max? = some mx) (hlt : mn < mx) :
    compute_bins values "equally_spaced" =
      .ok [mn, mn + (mx - mn) / 8, mn + 2 * ((mx - mn) / 8),
        mn + 3 * ((mx - mn) / 8), mn + 4 * ((mx - mn) / 8),
        mn + 5 * ((mx - mn) / 8), mn + 6 * ((mx - mn) / 8),
        mn + 7 * ((mx - mn) / 8), mx] ∧
    ([mn, mn + (mx - mn) / 8, mn + 2 * ((mx - mn) / 8),
      mn + 3 * ((mx - mn) / 8), mn + 4 * ((mx - mn) / 8),
      mn + 5 * ((mx - mn) / 8), mn + 6 * ((mx - mn) / 8),
      mn + 7 * ((mx - mn) / 8), mx] : List ℚ).length = 9 :=
  ⟨compute_bins_equal_width_explicit values mn mx hmn hmx hlt, rfl⟩

/-- C1 witness: equal-width bins over `[0, 10, 20, …, 80]` are exactly
`[0, 10, 20, 30, 40, 50, 60, 70, 80]`. -/
theorem equal_width_bins_eq_witness :
    compute_bins [0, 10, 20, 30, 40, 50, 60, 70, 80] "equally_spaced" =
      .ok [0, 10, 20, 30, 40, 50, 60, 70, 80] := by
  have h := (equal_width_bins_eq [0, 10, 20, 30, 40, 50, 60, 70, 80] 0 80
    (by decide) (by decide) (by norm_num)).1
  rw [h]
  norm_num

theorem mem_matchRow [DecidableEq κ] {rs : List (κ × β)} {l : κ × α}
    {row : MergedRow κ α β} (h : row ∈ matchRow rs l) :
    row.key = l.1 ∧ row.left = some l.2 := by
  simp only [matchRow] at h
  split at h
  · rw [List.mem_singleton] at h
    subst h
    exact ⟨rfl, rfl⟩
  · rw [List.mem_map] at h
    obtain ⟨r, _, hr⟩ := h
    subst hr
    exact ⟨rfl, rfl⟩

theorem matchRow_mem_of_mem [DecidableEq κ] {rs : List (κ × β)} (l : κ × α)
    {r : κ × β} (hr : r ∈ rs) (hk : l.1 = r.1) :
    (⟨l.1, some l.2, some r.2⟩ : MergedRow κ α β) ∈ matchRow rs l := by
  have hmem : r ∈ rs.filter (fun r => decide (l.1 = r.1)) :=
    List.mem_filter.mpr ⟨hr, by simpa using hk⟩
  simp only [matchRow]
  rw [if_neg (by simp only [List.isEmpty_iff]; exact List.ne_nil_of_mem hmem)]
  exact List.mem_map.mpr ⟨r, hmem, rfl⟩

/-- C10: a missing (NaN) join key is cast by `.astype(str)` to the string
`"nan"` and padded to `"00nan"`, so a shape row and a data row that both lack
a key receive the identical normalized key `"00nan"` and are matched to each
other by the outer join; no missing-key data row remains unmatched. -/
theorem missing_keys_merge_as_00nan (shape_rows : List (Option String × Option γ))
    (data_rows : List (Option String × β)) (g : Option γ) (b : β)
    (hg : (none, g) ∈ shape_rows) (hb : (none, b) ∈ data_rows) :
    normalizeZipKey none = "00nan" ∧
    (⟨"00nan", some g, some b⟩ : MergedRow String (Option γ) β) ∈
      prepare_zip_table shape_rows data_rows false ∧
    ∀ row ∈ prepare_zip_table shape_rows data_rows false,
      row.left = none → row.key ≠ "00nan" := by
  have hkey : normalizeZipKey none = "00nan" := by decide
  have hg' : ("00nan", g) ∈ shape_rows.map
      (fun r => (normalizeZipKey r.1, r.2)) := by
    rw [← hkey]
    exact List.mem_map.mpr ⟨(none, g), hg, rfl⟩
  have hb' : ("00nan", b) ∈ data_rows.map
      (fun r => (normalizeZipKey r.1, r.2)) := by
    rw [← hkey]
    exact List.mem_map.mpr ⟨(none, b), hb, rfl⟩
  have hpz : prepare_zip_table shape_rows data_rows false =
      outerMerge (shape_rows.map (fun r => (normalizeZipKey r.1, r.2)))
        (data_rows.map (fun r => (normalizeZipKey r.1, r.2))) := by
    simp [prepare_zip_table]
  refine ⟨hkey, ?_, ?_⟩
  · rw [hpz]
    apply List.mem_append_left
    exact List.mem_flatMap.mpr ⟨("00nan", g), hg',
      matchRow_mem_of_mem ("00nan", g) hb' rfl⟩
  · intro row hrow hleft
    rw [hpz] at hrow
    rcases List.mem_append.mp hrow with hml | hmr
    · obtain ⟨l, _, hl⟩ := List.mem_flatMap.mp hml
      have := (mem_matchRow hl).2
      rw [hleft] at this
      exact absurd this (by simp)
    · simp only [unmatchedRight, List.mem_map] at hmr
      obtain ⟨r, hrf, hr⟩ := hmr
      obtain ⟨hrmem, hpred⟩ := List.mem_filter.mp hrf
      intro hk
      have hkr : r.1 = "00nan" := by rw [← hr] at hk; exact hk
      have : (shape_rows.map (fun r => (normalizeZipKey r.1, r.2))).any
          (fun l => decide (l.1 = r.1)) = true :=
        List.any_eq_true.mpr ⟨("00nan", g), hg', by simp [hkr]⟩
      rw [this] at hpred
      exact absurd hpred (by decide)

/-- C10 witness: concrete tables in which both sides contain a missing key;
the two missing-key rows merge into one row keyed `"00nan"`. -/
theorem missing_keys_merge_as_00nan_witness :
    normalizeZipKey none = "00nan" ∧
    (⟨"00nan", some (some 7), some 3⟩ : MergedRow String (Option ℕ) ℕ) ∈
      prepare_zip_table [(some "10001", some 1), (none, some 7)]
        [(none, 3), (some "10001", 4)] false :=
  ⟨(missing_keys_merge_as_00nan [(some "10001", some 1), (none, some 7)]
      [(none, 3), (some "10001", 4)] (some 7) 3 (by decide) (by decide)).1,
   (missing_keys_merge_as_00nan [(some "10001", some 1), (none, some 7)]
      [(none, 3), (some "10001", 4)] (some 7) 3 (by decide) (by decide)).2.1⟩

theorem length_matchRow_pos [DecidableEq κ] (rs : List (κ × β)) (l : κ × α) :
    1 ≤ (matchRow (α := α) rs l).length := by
  simp only [matchRow]
  split
  · simp
  · rename_i h
    rw [List.isEmpty_iff] at h
    rw [List.length_map]
    exact List.length_pos.mpr h

theorem length_matchRow_ge_filter [DecidableEq κ] (rs : List (κ × β)) (l : κ × α) :
    (rs.filter (fun r => decide (l.1 = r.1))).length ≤
      (matchRow (α := α) rs l).length := by
  simp only [matchRow]
  split
  · rename_i h
    rw [List.isEmpty_iff] at h
    simp [h]
  · simp

theorem length_filter_add_length_filter_not (p : δ → Bool) (xs : List δ) :
    (xs.filter p).length + (xs.filter (fun x => !(p x))).length = xs.length := by
  induction xs with
  | nil => simp
  | cons x xs ih => by_cases hp : p x <;> simp [List.filter_cons, hp] <;> omega

theorem length_filter_or_le (p q : δ → Bool) (xs : List δ) :
    (xs.filter (fun x => p x || q x)).length ≤
      (xs.filter p).length + (xs.filter q).length := by
  induction xs with
  | nil => simp
  | cons x xs ih =>
    by_cases hp : p x <;> by_cases hq : q x <;>
      simp [List.filter_cons, hp, hq] <;> omega

theorem length_flatMap_matchRow_ge_left [DecidableEq κ] (ls : List (κ × α))
    (rs : List (κ × β)) :
    ls.length ≤ (ls.flatMap (matchRow (α := α) (β := β) rs)).length := by
  induction ls with
  | nil => simp
  | cons l ls ih =>
    rw [List.flatMap_cons, List.length_append, List.length_cons]
    have := length_matchRow_pos (α := α) rs l
    omega

theorem length_flatMap_matchRow_ge_matched [DecidableEq κ] (ls : List (κ × α))
    (rs : List (κ × β)) :
    (rs.filter (fun r => ls.any (fun l => decide (l.1 = r.1)))).length ≤
      (ls.flatMap (matchRow (α := α) (β := β) rs)).length := by
  induction ls with
  | nil => simp
  | cons l ls ih =>
    rw [List.flatMap_cons, List.length_append]
    have hsplit : rs.filter (fun r => (l :: ls).any (fun l' => decide (l'.1 = r.1))) =
        rs.filter (fun r => decide (l.1 = r.1) ||
          ls.any (fun l' => decide (l'.1 = r.1))) :=
      List.filter_congr (fun r _ => by simp [List.any_cons])
    rw [hsplit]
    have h1 := length_filter_or_le (fun r : κ × β => decide (l.1 = r.1))
      (fun r : κ × β => ls.any (fun l' => decide (l'.1 = r.1))) rs
    have h2 := length_matchRow_ge_filter (α := α) rs l
    omega

/-- C6: the join of the table-preparation functions is outer: with join keys
unique on both sides the merged table has at least
`max len(geometry_rows) len(attribute_rows)` rows; it contains a row for every
key of either input; and `dropna(subset='geometry')` removes exactly the rows
with null geometry — a row lacking attributes but having geometry is never
removed. -/
theorem outer_join_preserves_rows [DecidableEq κ] (ls : List (κ × Option γ))
    (rs : List (κ × β)) (hL : (ls.map Prod.fst).Nodup)
    (hR : (rs.map Prod.fst).Nodup) :
    max ls.length rs.length ≤ (outerMerge ls rs).length ∧
    (∀ k, (k ∈ ls.map Prod.fst ∨ k ∈ rs.map Prod.fst) →
      ∃ row ∈ outerMerge ls rs, row.key = k) ∧
    (∀ row ∈ outerMerge ls rs,
      (row ∈ dropnaGeometry (outerMerge ls rs) ↔ (rowGeometry row).isSome)) ∧
    (∀ row ∈ outerMerge ls rs, row.right = none → (rowGeometry row).isSome →
      row ∈ dropnaGeometry (outerMerge ls rs)) := by
  have hdropna : ∀ row ∈ outerMerge ls rs,
      (row ∈ dropnaGeometry (outerMerge ls rs) ↔ (rowGeometry row).isSome) := by
    intro row hrow
    constructor
    · intro h
      exact (List.mem_filter.mp h).2
    · intro h
      exact List.mem_filter.mpr ⟨hrow, h⟩
  refine ⟨?_, ?_, hdropna, fun row hrow _ hg => (hdropna row hrow).mpr hg⟩
  · have hflat := length_flatMap_matchRow_ge_left (β := β) ls rs
    have hmatched := length_flatMap_matchRow_ge_matched (α := Option γ) ls rs
    have hunm : (unmatchedRight ls rs).length =
        (rs.filter (fun r => !(ls.any (fun l => decide (l.1 = r.1))))).length := by
      simp [unmatchedRight]
    have htotal := length_filter_add_length_filter_not
      (fun r : κ × β => ls.any (fun l => decide (l.1 = r.1))) rs
    rw [outerMerge, List.length_append]
    omega
  · intro k hk
    rcases hk with hkl | hkr
    · obtain ⟨l, hl, hlk⟩ := List.mem_map.mp hkl
      obtain ⟨row, hrow⟩ := List.exists_mem_of_ne_nil (matchRow rs l)
        (by
          have := length_matchRow_pos (α := Option γ) rs l
          intro hnil
          rw [hnil] at this
          simp at this)
      refine ⟨row, List.mem_append_left _ (List.mem_flatMap.mpr ⟨l, hl, hrow⟩), ?_⟩
      rw [(mem_matchRow hrow).1, hlk]
    · obtain ⟨r, hr, hrk⟩ := List.mem_map.mp hkr
      by_cases hmatch : ls.any (fun l => decide (l.1 = r.1)) = true
      · obtain ⟨l, hl, hleq⟩ := List.any_eq_true.mp hmatch
        rw [decide_eq_true_eq] at hleq
        refine ⟨⟨l.1, some l.2, some r.2⟩,
          List.mem_append_left _ (List.mem_flatMap.mpr
            ⟨l, hl, matchRow_mem_of_mem l hr hleq⟩), ?_⟩
        rw [show (⟨l.1, some l.2, some r.2⟩ : MergedRow κ (Option γ) β).key = l.1
          from rfl, hleq, hrk]
      · refine ⟨⟨r.1, none, some r.2⟩, List.mem_append_right _ ?_, hrk⟩
        exact List.mem_map.mpr ⟨r, List.mem_filter.mpr
          ⟨hr, by simp [hmatch]⟩, rfl⟩

/-- C6 witness: the spec's scenario after padding — geometry keys `00501`,
`00544` and attribute keys `00501`, `99999` merge into a 3-row table covering
every key of either side. -/
theorem outer_join_preserves_rows_witness :
    max 2 2 ≤ (outerMerge [("00501", (some 1 : Option ℕ)), ("00544", some 2)]
      [("00501", (10 : ℕ)), ("99999", 20)]).length ∧
    ∃ row ∈ outerMerge [("00501", (some 1 : Option ℕ)), ("00544", some 2)]
      [("00501", (10 : ℕ)), ("99999", 20)], row.key = "99999" := by
  have h := outer_join_preserves_rows
    [("00501", (some 1 : Option ℕ)), ("00544", some 2)]
    [("00501", (10 : ℕ)), ("99999", 20)] (by decide) (by decide)
  exact ⟨h.1, h.2.1 "99999" (Or.inr (by decide))⟩

theorem sorted_getD_mono (xs : List ℚ) (hs : List.Sorted (· ≤ ·) xs)
    (a b : ℕ) (hab : a ≤ b) (hb : b < xs.length) :
    xs.getD a 0 ≤ xs.getD b 0 := by
  have ha : a < xs.length := lt_of_le_of_lt hab hb
  rw [List.getD_eq_getElem xs 0 ha, List.getD_eq_getElem xs 0 hb]
  rcases Nat.eq_or_lt_of_le hab with rfl | h
  · exact le_refl _
  · have := List.Sorted.rel_get_of_lt hs
      (Fin.mk_lt_mk.mpr h : (⟨a, ha⟩ : Fin xs.length) < ⟨b, hb⟩)
    simpa using this

theorem interpSorted_ge (xs : List ℚ) (hs : List.Sorted (· ≤ ·) xs) (p : ℚ)
    (h0 : 0 ≤ p) (hj : (⌊p⌋).toNat < xs.length) :
    xs.getD (⌊p⌋).toNat 0 ≤ interpSorted xs p := by
  have hg0 : 0 ≤ p - ⌊p⌋ := by
    have := Int.floor_le p
    linarith
  simp only [interpSorted]
  by_cases hj1 : (⌊p⌋).toNat + 1 < xs.length
  · have hy : xs.getD ((⌊p⌋).toNat + 1) (xs.getD (⌊p⌋).toNat 0) =
        xs.getD ((⌊p⌋).toNat + 1) 0 := by
      rw [List.getD_eq_getElem xs _ hj1, List.getD_eq_getElem xs 0 hj1]
    rw [hy]
    have hxy := sorted_getD_mono xs hs (⌊p⌋).toNat ((⌊p⌋).toNat + 1) (by omega) hj1
    have := mul_nonneg hg0 (sub_nonneg.mpr hxy)
    linarith
  · rw [List.getD_eq_default xs (xs.getD (⌊p⌋).toNat 0) (by omega)]
    simp

theorem interpSorted_le (xs : List ℚ) (hs : List.Sorted (· ≤ ·) xs) (p : ℚ)
    (h0 : 0 ≤ p) (hj1 : (⌊p⌋).toNat + 1 < xs.length) :
    interpSorted xs p ≤ xs.getD ((⌊p⌋).toNat + 1) 0 := by
  have hg1 : p - ⌊p⌋ ≤ 1 := by
    have := Int.lt_floor_add_one p
    push_cast at this
    linarith
  simp only [interpSorted]
  have hy : xs.getD ((⌊p⌋).toNat + 1) (xs.getD (⌊p⌋).toNat 0) =
      xs.getD ((⌊p⌋).toNat + 1) 0 := by
    rw [List.getD_eq_getElem xs _ hj1, List.getD_eq_getElem xs 0 hj1]
  rw [hy]
  have hxy := sorted_getD_mono xs hs (⌊p⌋).toNat ((⌊p⌋).toNat + 1) (by omega) hj1
  nlinarith [mul_nonneg (by linarith : (0:ℚ) ≤ 1 - (p - ⌊p⌋))
    (sub_nonneg.mpr hxy)]

theorem interpSorted_mono (xs : List ℚ) (hs : List.Sorted (· ≤ ·) xs)
    (hne : xs ≠ []) (p₁ p₂ : ℚ) (h0 : 0 ≤ p₁) (h12 : p₁ ≤ p₂)
    (hn : p₂ ≤ (xs.length : ℚ) - 1) :
    interpSorted xs p₁ ≤ interpSorted xs p₂ := by
  have h02 : 0 ≤ p₂ := le_trans h0 h12
  have hi₂len : ⌊p₂⌋ ≤ (xs.length : ℤ) - 1 := by
    have h := Int.floor_le_floor hn
    rwa [show ((xs.length : ℚ) - 1) = (((xs.length : ℤ) - 1 : ℤ) : ℚ)
      by push_cast; ring, Int.floor_intCast] at h
  have hi₁₂ : ⌊p₁⌋ ≤ ⌊p₂⌋ := Int.floor_le_floor h12
  have hi₁0 : 0 ≤ ⌊p₁⌋ := Int.floor_nonneg.mpr h0
  have hj₂len : (⌊p₂⌋).toNat < xs.length := by omega
  rcases eq_or_lt_of_le hi₁₂ with heq | hlt
  · have hg12 : p₁ - ⌊p₁⌋ ≤ p₂ - ⌊p₁⌋ := by linarith
    simp only [interpSorted]
    rw [← heq]
    by_cases hj1 : (⌊p₁⌋).toNat + 1 < xs.length
    · have hy : xs.getD ((⌊p₁⌋).toNat + 1) (xs.getD (⌊p₁⌋).toNat 0) =
          xs.getD ((⌊p₁⌋).toNat + 1) 0 := by
        rw [List.getD_eq_getElem xs _ hj1, List.getD_eq_getElem xs 0 hj1]
      rw [hy]
      have hxy := sorted_getD_mono xs hs (⌊p₁⌋).toNat ((⌊p₁⌋).toNat + 1)
        (by omega) hj1
      have := mul_le_mul_of_nonneg_right hg12 (sub_nonneg.mpr hxy)
      linarith
    · rw [List.getD_eq_default xs (xs.getD (⌊p₁⌋).toNat 0) (by omega)]
      simp
  · have hj₁₂ : (⌊p₁⌋).toNat + 1 ≤ (⌊p₂⌋).toNat := by omega
    have hj1len : (⌊p₁⌋).toNat + 1 < xs.length := by omega
    calc interpSorted xs p₁ ≤ xs.getD ((⌊p₁⌋).toNat + 1) 0 :=
          interpSorted_le xs hs p₁ h0 hj1len
      _ ≤ xs.getD (⌊p₂⌋).toNat 0 := sorted_getD_mono xs hs _ _ hj₁₂ hj₂len
      _ ≤ interpSorted xs p₂ := interpSorted_ge xs hs p₂ h02 hj₂len

theorem interpSorted_zero (xs : List ℚ) : interpSorted xs 0 = xs.getD 0 0 := by
  simp [interpSorted]

theorem interpSorted_last (xs : List ℚ) (hne : xs ≠ []) :
    interpSorted xs ((xs.length : ℚ) - 1) = xs.getD (xs.length - 1) 0 := by
  have hlen : 1 ≤ xs.length := List.length_pos.mpr hne
  have h1 : ⌊(xs.length : ℚ) - 1⌋ = (xs.length : ℤ) - 1 := by
    rw [show ((xs.length : ℚ) - 1) = (((xs.length : ℤ) - 1 : ℤ) : ℚ)
      by push_cast; ring, Int.floor_intCast]
  simp only [interpSorted, h1]
  have h2 : ((xs.length : ℤ) - 1).toNat = xs.length - 1 := by omega
  have h3 : ((((xs.length) : ℤ) - 1 : ℤ) : ℚ) = (xs.length : ℚ) - 1 := by
    push_cast
    ring
  rw [h2, h3, sub_self, zero_mul, add_zero]

theorem insertionSort_getD_zero_eq_min (values : List ℚ) (mn : ℚ)
    (hmn : values.min? = some mn) :
    (values.insertionSort (· ≤ ·)).getD 0 0 = mn := by
  obtain ⟨hmem, hle⟩ := (rat_min?_eq_some_iff values mn).1 hmn
  have hperm := List.perm_insertionSort (· ≤ ·) values
  have hs := List.sorted_insertionSort (· ≤ ·) values
  cases hsort : values.insertionSort (· ≤ ·) with
  | nil =>
    rw [hsort] at hperm
    rw [hperm.symm.mem_iff] at hmem
    simp at hmem
  | cons a t =>
    rw [hsort] at hperm hs
    have hmem' : mn ∈ a :: t := hperm.mem_iff.mpr hmem
    have ha : a ∈ values := hperm.mem_iff.mp (List.mem_cons_self a t)
    have h1 : mn ≤ a := hle a ha
    have h2 : a ≤ mn := by
      rcases List.mem_cons.mp hmem' with rfl | hmt
      · exact le_refl _
      · exact (List.sorted_cons.mp hs).1 mn hmt
    simpa using le_antisymm h2 h1

theorem insertionSort_getD_last_eq_max (values : List ℚ) (mx : ℚ)
    (hmx : values.max? = some mx) :
    (values.insertionSort (· ≤ ·)).getD
      ((values.insertionSort (· ≤ ·)).length - 1) 0 = mx := by
  obtain ⟨hmem, hle⟩ := (rat_max?_eq_some_iff values mx).1 hmx
  have hperm := List.perm_insertionSort (· ≤ ·) values
  have hs := List.sorted_insertionSort (· ≤ ·) values
  have hmem' : mx ∈ values.insertionSort (· ≤ ·) := hperm.mem_iff.mpr hmem
  have hlenpos : 0 < (values.insertionSort (· ≤ ·)).length :=
    List.length_pos.mpr (List.ne_nil_of_mem hmem')
  obtain ⟨i, hi, hix⟩ := List.mem_iff_getElem.mp hmem'
  have h1 : (values.insertionSort (· ≤ ·)).getD i 0 = mx := by
    rw [List.getD_eq_getElem _ 0 hi, hix]
  have h2 := sorted_getD_mono (values.insertionSort (· ≤ ·)) hs i
    ((values.insertionSort (· ≤ ·)).length - 1) (by omega) (by omega)
  have h3 : (values.insertionSort (· ≤ ·)).getD
      ((values.insertionSort (· ≤ ·)).length - 1) 0 ≤ mx := by
    have hmem'' : (values.insertionSort (· ≤ ·)).getD
        ((values.insertionSort (· ≤ ·)).length - 1) 0 ∈
        values.insertionSort (· ≤ ·) := by
      rw [List.getD_eq_getElem _ 0 (by omega)]
      exact List.getElem_mem (by omega)
    exact hle _ (hperm.mem_iff.mp hmem'')
  rw [h1] at h2
  exact le_antisymm h3 h2

theorem np_percentile_one_zero (values : List ℚ) (mn : ℚ)
    (hmn : values.min? = some mn) : np_percentile_one values 0 = mn := by
  unfold np_percentile_one
  rw [zero_mul, zero_div, interpSorted_zero]
  exact insertionSort_getD_zero_eq_min values mn hmn

theorem np_percentile_one_hundred (values : List ℚ) (mx : ℚ)
    (hmx : values.max? = some mx) : np_percentile_one values 100 = mx := by
  have hmem := ((rat_max?_eq_some_iff values mx).1 hmx).1
  have hne : values ≠ [] := List.ne_nil_of_mem hmem
  have hlen : (values.insertionSort (· ≤ ·)).length = values.length :=
    (List.perm_insertionSort (· ≤ ·) values).length_eq
  have hsne : values.insertionSort (· ≤ ·) ≠ [] := by
    apply List.length_pos.mp
    rw [hlen]
    exact List.length_pos.mpr hne
  unfold np_percentile_one
  have h100 : (100 : ℚ) * ((values.length : ℚ) - 1) / 100 =
      (values.length : ℚ) - 1 := by
    field_simp
  rw [h100, ← hlen, interpSorted_last _ hsne]
  exact insertionSort_getD_last_eq_max values mx hmx

theorem np_percentile_one_mono (values : List ℚ) (hne : values ≠ [])
    (q₁ q₂ : ℚ) (h0 : 0 ≤ q₁) (h12 : q₁ ≤ q₂) (h100 : q₂ ≤ 100) :
    np_percentile_one values q₁ ≤ np_percentile_one values q₂ := by
  have hlen : (values.insertionSort (· ≤ ·)).length = values.length :=
    (List.perm_insertionSort (· ≤ ·) values).length_eq
  have hlenpos : 1 ≤ values.length := List.length_pos.mpr hne
  have hn1 : (0 : ℚ) ≤ (values.length : ℚ) - 1 := by
    have h : (1 : ℚ) ≤ (values.length : ℚ) := by exact_mod_cast hlenpos
    linarith
  have hsne : values.insertionSort (· ≤ ·) ≠ [] := by
    apply List.length_pos.mp
    rw [hlen]
    exact hlenpos
  unfold np_percentile_one
  refine interpSorted_mono _ (List.sorted_insertionSort _ _) hsne _ _
    (div_nonneg (mul_nonneg h0 hn1) (by norm_num)) ?_ ?_
  · exact div_le_div_of_nonneg_right
      (mul_le_mul_of_nonneg_right h12 hn1) (by norm_num)
  · rw [hlen, div_le_iff (by norm_num : (0:ℚ) < 100)]
    nlinarith [mul_le_mul_of_nonneg_right h100 hn1]

/-- C8: under the percentile policy (`'percentiles'`), a non-empty column with
at least two distinct values yields exactly the 9 edges at the 0th, 12.5th, …,
100th percentiles computed by linear interpolation between order statistics: a
non-decreasing sequence whose first edge is the minimum and whose last edge is
the maximum of the values. -/
theorem percentile_bins_spec (values : List ℚ) (a b : ℚ) (ha : a ∈ values)
    (hb : b ∈ values) (hab : a ≠ b) (mn mx : ℚ)
    (hmn : values.min? = some mn) (hmx : values.max? = some mx) :
    compute_bins values "percentiles" =
      .ok (np_percentile values percentile_points) ∧
    (np_percentile values percentile_points).length = 9 ∧
    List.Sorted (· ≤ ·) (np_percentile values percentile_points) ∧
    (np_percentile values percentile_points).headD 0 = mn ∧
    (np_percentile values percentile_points).getLastD 0 = mx := by
  have hne : values ≠ [] := List.ne_nil_of_mem ha
  refine ⟨compute_bins_percentiles values hne, rfl, ?_, ?_, ?_⟩
  · apply List.chain'_iff_pairwise.mp
    simp only [np_percentile, percentile_points, List.map_cons, List.map_nil,
      List.chain'_cons, List.chain'_singleton, and_true]
    refine ⟨?_, ?_, ?_, ?_, ?_, ?_, ?_, ?_⟩ <;>
      apply np_percentile_one_mono values hne <;> norm_num
  · simp only [np_percentile, percentile_points, List.map_cons, List.headD_cons]
    exact np_percentile_one_zero values mn hmn
  · simp only [np_percentile, percentile_points, List.map_cons, List.map_nil,
      List.getLastD_cons, List.getLastD_nil]
    exact np_percentile_one_hundred values mx hmx

/-- C8 witness: the column `[10, 30]` has the two distinct values 10 and 30;
its percentile bins are 9 non-decreasing edges from 10 to 30. -/
theorem percentile_bins_spec_witness :
    compute_bins [10, 30] "percentiles" =
      .ok (np_percentile [10, 30] percentile_points) ∧
    (np_percentile [10, 30] percentile_points).length = 9 ∧
    List.Sorted (· ≤ ·) (np_percentile [10, 30] percentile_points) ∧
    (np_percentile [10, 30] percentile_points).headD 0 = 10 ∧
    (np_percentile [10, 30] percentile_points).getLastD 0 = 30 :=
  percentile_bins_spec [10, 30] 10 30 (by decide) (by decide) (by decide)
    10 30 (by decide) (by decide)

theorem compute_bins_cover (vals : List ℚ) (bt : String) (bins : List ℚ)
    (hcb : compute_bins vals bt = .ok bins) :
    ∀ v ∈ vals, bins.headD 0 ≤ v ∧ v ≤ bins.getLastD 0 := by
  by_cases hbt1 : bt = "percentiles"
  · subst hbt1
    by_cases hne : vals = []
    · subst hne
      simp [compute_bins] at hcb
    · rw [compute_bins_percentiles vals hne] at hcb
      obtain rfl : bins = np_percentile vals percentile_points := by
        simpa using hcb.symm
      cases hmn : vals.min? with
      | none => exact absurd (List.min?_eq_none_iff.mp hmn) hne
      | some mn =>
        cases hmx : vals.max? with
        | none => exact absurd (List.max?_eq_none_iff.mp hmx) hne
        | some mx =>
          intro v hv
          have hhead : (np_percentile vals percentile_points).headD 0 = mn := by
            simp only [np_percentile, percentile_points, List.map_cons,
              List.headD_cons]
            exact np_percentile_one_zero vals mn hmn
          have hlast : (np_percentile vals percentile_points).getLastD 0 = mx := by
            simp only [np_percentile, percentile_points, List.map_cons,
              List.map_nil, List.getLastD_cons, List.getLastD_nil]
            exact np_percentile_one_hundred vals mx hmx
          rw [hhead, hlast]
          exact ⟨((rat_min?_eq_some_iff vals mn).1 hmn).2 v hv,
            ((rat_max?_eq_some_iff vals mx).1 hmx).2 v hv⟩
  · by_cases hbt2 : bt = "equally_spaced"
    · subst hbt2
      cases hmn : vals.min? with
      | none =>
        have hmx : vals.max? = none := by
          rw [List.max?_eq_none_iff, ← List.min?_eq_none_iff]
          exact hmn
        unfold compute_bins at hcb
        rw [if_neg (by decide), if_pos rfl, hmn, hmx] at hcb
        simp at hcb
      | some mn =>
        cases hmx : vals.max? with
        | none =>
          have h := List.max?_eq_none_iff.mp hmx
          rw [h] at hmn
          simp at hmn
        | some mx =>
          have hmem := ((rat_min?_eq_some_iff vals mn).1 hmn).1
          have hmnmx : mn ≤ mx := ((rat_max?_eq_some_iff vals mx).1 hmx).2 mn hmem
          rcases eq_or_lt_of_le hmnmx with heq | hlt
          · subst heq
            rw [compute_bins_equal_width_const vals mn hmn hmx] at hcb
            simp at hcb
          · rw [compute_bins_equal_width_explicit vals mn mx hmn hmx hlt] at hcb
            obtain rfl : bins = [mn, mn + (mx - mn) / 8, mn + 2 * ((mx - mn) / 8),
                mn + 3 * ((mx - mn) / 8), mn + 4 * ((mx - mn) / 8),
                mn + 5 * ((mx - mn) / 8), mn + 6 * ((mx - mn) / 8),
                mn + 7 * ((mx - mn) / 8), mx] := by
              simpa using hcb.symm
            intro v hv
            constructor
            · simpa using ((rat_min?_eq_some_iff vals mn).1 hmn).2 v hv
            · simpa [List.getLastD_cons, List.getLastD_nil] using
                ((rat_max?_eq_some_iff vals mx).1 hmx).2 v hv
    · unfold compute_bins at hcb
      rw [if_neg hbt1, if_neg hbt2] at hcb
      simp at hcb

/-- C3: `render_map` processes its value column in source order — (1) drop
rows whose value is null, (2) multiply by the scale factor, (3) round to the
configured decimals, (4) truncate by `rows_to_map` when nonzero — and (5)
derives the bin edges from the already scaled, rounded and truncated values;
consequently whenever the bin computation succeeds, every surviving value lies
within [first edge, last edge]. -/
theorem processing_order_and_bins_cover (values : List (Option ℚ)) (m : ℚ)
    (d : ℕ) (r : ℤ) (bt hp mnm : String) (ws : List String)
    (vals bins : List ℚ)
    (hrun : render_map values m d r bt hp mnm = (ws, .ok (vals, bins))) :
    vals = (if r ≠ 0 then pySlice0 r (preTruncateValues values m d)
      else preTruncateValues values m d) ∧
    compute_bins vals bt = .ok bins ∧
    ∀ v ∈ vals, bins.headD 0 ≤ v ∧ v ≤ bins.getLastD 0 := by
  have hsnd := congrArg Prod.snd hrun
  rw [render_map_snd] at hsnd
  cases hcb : compute_bins (processValues values m d r) bt with
  | error e =>
    rw [hcb] at hsnd
    simp [Except.map] at hsnd
  | ok bins' =>
    rw [hcb] at hsnd
    simp only [Except.map, Except.ok.injEq, Prod.mk.injEq] at hsnd
    obtain ⟨hv, hb⟩ := hsnd
    subst hv
    subst hb
    refine ⟨rfl, hcb, compute_bins_cover _ bt _ hcb⟩

/-- C3 witness: a concrete run with a null row, scale 1, 0 decimals and no
truncation: the processed values `[0, 8]` all lie between the first and last
of the equal-width edges `[0, 1, …, 8]`. -/
theorem processing_order_and_bins_cover_witness :
    render_map [some 0, none, some 8] 1 0 0 "equally_spaced" "p" "m" =
      (["p\\m.html"], .ok ([0, 8], [0, 1, 2, 3, 4, 5, 6, 7, 8])) ∧
    ∀ v ∈ ([0, 8] : List ℚ), ([0, 1, 2, 3, 4, 5, 6, 7, 8] : List ℚ).headD 0 ≤ v ∧
      v ≤ ([0, 1, 2, 3, 4, 5, 6, 7, 8] : List ℚ).getLastD 0 := by
  have hpv : processValues [some 0, none, some 8] 1 0 0 = [0, 8] := by
    have hfm : List.filterMap id [some (0 : ℚ), none, some 8] = [0, 8] := rfl
    simp only [processValues]
    rw [if_neg (by omega), hfm]
    norm_num [roundTo, roundHalfEven]
  have hcb : compute_bins [0, 8] "equally_spaced" =
      .ok [0, 1, 2, 3, 4, 5, 6, 7, 8] := by
    have h := compute_bins_equal_width_explicit [0, 8] 0 8 (by decide) (by decide)
      (by norm_num)
    rw [h]
    norm_num
  have hrun : render_map [some 0, none, some 8] 1 0 0 "equally_spaced" "p" "m" =
      (["p\\m.html"], .ok ([0, 8], [0, 1, 2, 3, 4, 5, 6, 7, 8])) := by
    simp only [render_map]
    rw [hpv, hcb]
    rfl
  exact ⟨hrun, (processing_order_and_bins_cover [some 0, none, some 8] 1 0 0
    "equally_spaced" "p" "m" ["p\\m.html"] [0, 8] [0, 1, 2, 3, 4, 5, 6, 7, 8]
    hrun).2.2⟩

end MappingFunctions
